import Mathlib

/-!
Verification of the `httprouter` package (`application.go`, `web_application.go`).

The router (`Application`) keeps a map from path pattern to a per-path method
table (`pathMethodHandlerMap`), a list of global middleware (`mws`), and
registers, with the underlying multiplexer, exactly one dispatch callback per
distinct path.  Go's `map[string]T` is modelled as an association list whose
write operation (`mapSet`) replaces in place or appends, and whose read
(`mapGet`) returns the first binding; iteration order of the model is the
list order, standing in for Go's unspecified map iteration order.  Go function
values of type `http.HandlerFunc` may be nil; invoking a nil function is a
runtime fault, modelled by `Except Unit` (`.error ()` = the fault, which
propagates uncaught).  The response writer records headers, the written status
code and body, plus an observation log standing in for the side effects the
package's tests record through shared slices.
-/

/-- Go map read: first binding for the key, `none` when absent
(a read from a missing key yields the zero value, i.e. a nil inner map). -/
def mapGet {β : Type} : List (String × β) → String → Option β
  | [], _ => none
  | (k', v) :: rest, k => if k' = k then some v else mapGet rest k

/-- Go map write `m[k] = v`: replace the binding in place when the key is
present, append it otherwise. -/
def mapSet {β : Type} : List (String × β) → String → β → List (String × β)
  | [], k, v => [(k, v)]
  | (k', v') :: rest, k, v =>
      if k' = k then (k, v) :: rest else (k', v') :: mapSet rest k v

/-- An HTTP request as far as the router reads it: method string and URL path. -/
structure Request where
  method : String
  path : String

/-- Observable state of the response writer: headers, status code once
written, accumulated body text, and an observation log (the `called` slices
of the package's tests, recording which middleware/handlers ran). -/
structure ResponseWriter where
  headers : List (String × String) := []
  status : Option Nat := none
  body : String := ""
  log : List String := []

/-- A fresh response recorder. -/
def emptyResponse : ResponseWriter := {}

/-- Type `http.HandlerFunc`: a Go function value, possibly nil. -/
inductive HandlerFunc where
  | nil : HandlerFunc
  | fn : (Request → ResponseWriter → Except Unit ResponseWriter) → HandlerFunc

/-- Calling a `HandlerFunc`: calling a nil function value is a runtime fault
(`.error ()`), which propagates uncaught through the router. -/
def HandlerFunc.invoke : HandlerFunc → Request → ResponseWriter → Except Unit ResponseWriter
  | .nil, _, _ => .error ()
  | .fn f, r, w => f r w

/-- Source type `Middleware func(handlerFunc http.HandlerFunc) http.HandlerFunc`
(from `web_application.go`). -/
abbrev Middleware := HandlerFunc → HandlerFunc

/-- Source type `methodHandlerMap map[string]http.HandlerFunc`. -/
abbrev methodHandlerMap := List (String × HandlerFunc)

/-- The router.  `mux` records, in installation order, the path patterns for
which a dispatch callback has been installed on the underlying `http.ServeMux`
(all installed callbacks share the one closure body from `handle`, reading the
router's current state, so the mux is fully described by its pattern list). -/
structure Application where
  mux : List String
  mws : List Middleware
  pathMethodHandlerMap : List (String × methodHandlerMap)

/-- Constructor `NewApplication`: empty route table, no global middleware, fresh mux. -/
def NewApplication : Application :=
  { mux := [], mws := [], pathMethodHandlerMap := [] }

/-- Method `WithGlobalMiddlewares`: appends the given middleware to the global list
and returns the (updated) router for fluent chaining. -/
def Application.WithGlobalMiddlewares (a : Application) (mws : List Middleware) : Application :=
  { a with mws := a.mws ++ mws }

/-- Method `applyMiddleware`: `for i := len(mws) - 1; i >= 0; i-- { handler = mws[i](handler) }`,
i.e. the first middleware of the list ends up outermost. -/
def Application.applyMiddleware (_a : Application) (handler : HandlerFunc)
    (mws : List Middleware) : HandlerFunc :=
  mws.foldr (fun mw h => mw h) handler

/-- Method `middleware`: first wrap with the route-specific middleware, then with the
router's current global middleware (global ends up outermost). -/
def Application.middleware (a : Application) (handler : HandlerFunc)
    (mws : List Middleware) : HandlerFunc :=
  a.applyMiddleware (a.applyMiddleware handler mws) a.mws

/-- Header write `w.Header().Set(k, v)`. -/
def setHeader (hs : List (String × String)) (k v : String) : List (String × String) :=
  mapSet hs k v

/-- Library call `http.Error(w, msg, code)`: sets `Content-Type` and
`X-Content-Type-Options`, writes the status code, then prints the message
followed by a single newline. -/
def httpError (w : ResponseWriter) (msg : String) (code : Nat) : ResponseWriter :=
  { w with
    headers := setHeader (setHeader w.headers "Content-Type" "text/plain; charset=utf-8")
      "X-Content-Type-Options" "nosniff",
    status := some code,
    body := w.body ++ msg ++ "\n" }

/-- Method `allowedMethods`: Go-style fold over the keys of the path's method table,
inserting `", "` before every method but the first non-empty accumulator. -/
def Application.allowedMethods (a : Application) (path : String) : String :=
  ((mapGet a.pathMethodHandlerMap path).getD []).foldl
    (fun methods kv => (if methods = "" then methods else methods ++ ", ") ++ kv.1) ""

/-- The dispatch callback `handle` installs (once per path) on the mux: look
up the request method in the path's current method table; invoke the composed
handler when present, otherwise set the `Allow` header and answer 405. -/
def Application.dispatchCallback (a : Application) (path : String) (r : Request)
    (w : ResponseWriter) : Except Unit ResponseWriter :=
  let pMH := (mapGet a.pathMethodHandlerMap path).getD []
  match mapGet pMH r.method with
  | some h => h.invoke r w
  | none =>
      let w1 := { w with headers := setHeader w.headers "Allow" (a.allowedMethods path) }
      .ok (httpError w1 "Method Not Allowed" 405)

/-- Method `handle`: on first registration for `path`, create an empty method table
and install the dispatch callback on the mux; then store the composed handler
under `(path, method)`, overwriting any previous one. -/
def Application.handle (a : Application) (method path : String) (handler : HandlerFunc)
    (mws : List Middleware) : Application :=
  let a1 :=
    match mapGet a.pathMethodHandlerMap path with
    | none =>
        { a with
          pathMethodHandlerMap := mapSet a.pathMethodHandlerMap path [],
          mux := a.mux ++ [path] }
    | some _ => a
  { a1 with
    pathMethodHandlerMap :=
      mapSet a1.pathMethodHandlerMap path
        (mapSet ((mapGet a1.pathMethodHandlerMap path).getD []) method
          (a1.middleware handler mws)) }

/-- Constant `http.MethodGet`. -/
def MethodGet : String := "GET"

/-- Constant `http.MethodPost`. -/
def MethodPost : String := "POST"

/-- Constant `http.MethodPut`. -/
def MethodPut : String := "PUT"

/-- Constant `http.MethodPatch`. -/
def MethodPatch : String := "PATCH"

/-- Constant `http.MethodDelete`. -/
def MethodDelete : String := "DELETE"

/-- Entry point `Get`. -/
def Application.Get (a : Application) (path : String) (handler : HandlerFunc)
    (mws : List Middleware) : Application :=
  a.handle MethodGet path handler mws

/-- Entry point `Post`. -/
def Application.Post (a : Application) (path : String) (handler : HandlerFunc)
    (mws : List Middleware) : Application :=
  a.handle MethodPost path handler mws

/-- Entry point `Put`. -/
def Application.Put (a : Application) (path : String) (handler : HandlerFunc)
    (mws : List Middleware) : Application :=
  a.handle MethodPut path handler mws

/-- Entry point `Patch`. -/
def Application.Patch (a : Application) (path : String) (handler : HandlerFunc)
    (mws : List Middleware) : Application :=
  a.handle MethodPatch path handler mws

/-- Entry point `Delete`. -/
def Application.Delete (a : Application) (path : String) (handler : HandlerFunc)
    (mws : List Middleware) : Application :=
  a.handle MethodDelete path handler mws

/-- Dispatch `http.ServeMux.ServeHTTP` as the router relies on it: an inbound request
whose path has an installed pattern runs that pattern's dispatch callback
(against the router's current state — the callback is a closure over the
router); otherwise the mux's own not-found handling applies (`none`). -/
def serveMux (a : Application) (r : Request) (w : ResponseWriter) :
    Option (Except Unit ResponseWriter) :=
  if r.path ∈ a.mux then some (a.dispatchCallback r.path r w) else none

/-- A middleware that appends `name` to the observation log and then invokes
the next handler (the instrumentation used by the package's tests). -/
def logMw (name : String) : Middleware :=
  fun next => .fn fun r w => next.invoke r { w with log := w.log ++ [name] }

/-- A short-circuiting middleware: appends `name` to the log and elects not to
invoke the next step. -/
def stopMw (name : String) : Middleware :=
  fun _ => .fn fun _ w => .ok { w with log := w.log ++ [name] }

/-- A terminal handler that appends `name` to the observation log. -/
def logHandler (name : String) : HandlerFunc :=
  .fn fun _ w => .ok { w with log := w.log ++ [name] }

/-- Modelled from the spec: the comma-and-space join of a method list, with no
trailing separator and the empty string for the empty list.  Used to compare
`allowedMethods` against the spec's description of the `Allow` value. -/
def joinMethods : List String → String
  | [] => ""
  | [m] => m
  | m :: ms => m ++ ", " ++ joinMethods ms

/-- The ", "-prefixed tail of a join; proof plumbing for `joinMethods`. -/
def joinTail : List String → String
  | [] => ""
  | m :: ms => ", " ++ m ++ joinTail ms

/-- Every path whose method table exists has its dispatch callback installed
on the mux (the direction of the route-table invariant that dispatch needs). -/
def muxCovers (a : Application) : Prop :=
  ∀ q, (mapGet a.pathMethodHandlerMap q).isSome = true → q ∈ a.mux

/-- The five registered method strings. -/
def supportedMethods : List String :=
  [MethodGet, MethodPost, MethodPut, MethodPatch, MethodDelete]

/-- Predicate: `(path, method)` currently has a stored handler. -/
def methodRegistered (a : Application) (p m : String) : Bool :=
  (mapGet ((mapGet a.pathMethodHandlerMap p).getD []) m).isSome

/-- One call of the public API (`WithGlobalMiddlewares` or one of the five
registration entry points of the `WebApplication` interface). -/
inductive PublicStep : Application → Application → Prop where
  | withGlobal (a : Application) (mws : List Middleware) :
      PublicStep a (a.WithGlobalMiddlewares mws)
  | get (a : Application) (p : String) (h : HandlerFunc) (mws : List Middleware) :
      PublicStep a (a.Get p h mws)
  | post (a : Application) (p : String) (h : HandlerFunc) (mws : List Middleware) :
      PublicStep a (a.Post p h mws)
  | put (a : Application) (p : String) (h : HandlerFunc) (mws : List Middleware) :
      PublicStep a (a.Put p h mws)
  | patch (a : Application) (p : String) (h : HandlerFunc) (mws : List Middleware) :
      PublicStep a (a.Patch p h mws)
  | delete (a : Application) (p : String) (h : HandlerFunc) (mws : List Middleware) :
      PublicStep a (a.Delete p h mws)

/-- Router states reachable through the public API from `NewApplication`. -/
inductive Reachable : Application → Prop where
  | new : Reachable NewApplication
  | step {a a' : Application} : Reachable a → PublicStep a a' → Reachable a'

/-- The structural invariant maintained by the public API. -/
structure RouterInv (a : Application) : Prop where
  mux_iff : ∀ p, p ∈ a.mux ↔ (mapGet a.pathMethodHandlerMap p).isSome = true
  mux_nodup : a.mux.Nodup
  tbl_ne : ∀ p tbl, mapGet a.pathMethodHandlerMap p = some tbl → tbl ≠ []
  keys_nodup : ∀ p tbl, mapGet a.pathMethodHandlerMap p = some tbl →
    (tbl.map Prod.fst).Nodup
  keys_supported : ∀ p tbl, mapGet a.pathMethodHandlerMap p = some tbl →
    ∀ m ∈ tbl.map Prod.fst, m ∈ supportedMethods

/-! ## Lemmas about the Go-map model -/

theorem mapGet_mapSet_self {β : Type} (l : List (String × β)) (k : String) (v : β) :
    mapGet (mapSet l k v) k = some v := by
  induction l with
  | nil => simp [mapGet, mapSet]
  | cons kv rest ih =>
    obtain ⟨k', v'⟩ := kv
    by_cases h : k' = k
    · simp [mapGet, mapSet, h]
    · simp [mapGet, mapSet, h, ih]

theorem mapGet_mapSet_ne {β : Type} (l : List (String × β)) (k k' : String) (v : β)
    (h : k' ≠ k) : mapGet (mapSet l k v) k' = mapGet l k' := by
  induction l with
  | nil => simp [mapGet, mapSet, Ne.symm h]
  | cons kv rest ih =>
    obtain ⟨k2, v2⟩ := kv
    by_cases h2 : k2 = k
    · subst h2
      simp [mapGet, mapSet, Ne.symm h]
    · simp [mapGet, mapSet, h2, ih]

theorem mapSet_ne_nil {β : Type} (l : List (String × β)) (k : String) (v : β) :
    mapSet l k v ≠ [] := by
  cases l with
  | nil => simp [mapSet]
  | cons kv rest =>
    obtain ⟨k', v'⟩ := kv
    by_cases h : k' = k <;> simp [mapSet, h]

theorem mapGet_isSome_iff {β : Type} (l : List (String × β)) (k : String) :
    (mapGet l k).isSome = true ↔ k ∈ l.map Prod.fst := by
  induction l with
  | nil => simp [mapGet]
  | cons kv rest ih =>
    obtain ⟨k', v'⟩ := kv
    by_cases h : k' = k
    · subst h
      simp [mapGet]
    · simp [mapGet, h, ih, Ne.symm h]

theorem keys_mapSet {β : Type} (l : List (String × β)) (k : String) (v : β) :
    (mapSet l k v).map Prod.fst =
      if (mapGet l k).isSome then l.map Prod.fst else l.map Prod.fst ++ [k] := by
  induction l with
  | nil => simp [mapGet, mapSet]
  | cons kv rest ih =>
    obtain ⟨k', v'⟩ := kv
    by_cases h : k' = k
    · subst h
      simp [mapGet, mapSet]
    · simp only [mapSet, mapGet, if_neg h, List.map_cons, ih]
      split <;> simp

theorem mapGet_mapSet_isSome {β : Type} (l : List (String × β)) (k k' : String) (v : β)
    (h : (mapGet l k').isSome = true) : (mapGet (mapSet l k v) k').isSome = true := by
  by_cases hk : k' = k
  · subst hk
    simp [mapGet_mapSet_self]
  · rwa [mapGet_mapSet_ne _ _ _ _ hk]

/-! ## Lemmas about middleware composition -/

theorem applyMiddleware_append (a : Application) (h : HandlerFunc)
    (l1 l2 : List Middleware) :
    a.applyMiddleware h (l1 ++ l2) = a.applyMiddleware (a.applyMiddleware h l2) l1 := by
  simp [Application.applyMiddleware, List.foldr_append]

theorem applyMiddleware_logMw (a : Application) (names : List String) (h : HandlerFunc)
    (r : Request) (w : ResponseWriter) :
    (a.applyMiddleware h (names.map logMw)).invoke r w
      = h.invoke r { w with log := w.log ++ names } := by
  induction names generalizing w with
  | nil => simp [Application.applyMiddleware]
  | cons n ns ih =>
    show (logMw n (a.applyMiddleware h (ns.map logMw))).invoke r w = _
    rw [show (logMw n (a.applyMiddleware h (ns.map logMw))).invoke r w
        = (a.applyMiddleware h (ns.map logMw)).invoke r { w with log := w.log ++ [n] }
      from rfl, ih]
    simp

theorem applyMiddleware_stopMw (a : Application) (h : HandlerFunc) (s : String)
    (l : List Middleware) (r : Request) (w : ResponseWriter) :
    (a.applyMiddleware h (stopMw s :: l)).invoke r w
      = .ok { w with log := w.log ++ [s] } := rfl

theorem middleware_congr_mws {a b : Application} (hab : a.mws = b.mws)
    (h : HandlerFunc) (mws : List Middleware) :
    a.middleware h mws = b.middleware h mws := by
  simp [Application.middleware, Application.applyMiddleware, hab]

/-! ## Lemmas about `handle` -/

theorem handle_mws (a : Application) (m p : String) (h : HandlerFunc)
    (mws : List Middleware) : (a.handle m p h mws).mws = a.mws := by
  cases hc : mapGet a.pathMethodHandlerMap p <;> simp [Application.handle, hc]

theorem handle_pm_self (a : Application) (m p : String) (h : HandlerFunc)
    (mws : List Middleware) :
    mapGet (a.handle m p h mws).pathMethodHandlerMap p
      = some (mapSet ((mapGet a.pathMethodHandlerMap p).getD []) m
          (a.middleware h mws)) := by
  cases hc : mapGet a.pathMethodHandlerMap p with
  | none =>
      simp [Application.handle, hc, mapGet_mapSet_self,
        Application.middleware, Application.applyMiddleware]
  | some tbl =>
      simp [Application.handle, hc, mapGet_mapSet_self]

theorem handle_pm_other (a : Application) (m p : String) (h : HandlerFunc)
    (mws : List Middleware) (q : String) (hq : q ≠ p) :
    mapGet (a.handle m p h mws).pathMethodHandlerMap q
      = mapGet a.pathMethodHandlerMap q := by
  cases hc : mapGet a.pathMethodHandlerMap p <;>
    simp [Application.handle, hc, mapGet_mapSet_ne _ _ _ _ hq]

theorem handle_mux_of_none (a : Application) (m p : String) (h : HandlerFunc)
    (mws : List Middleware) (hc : mapGet a.pathMethodHandlerMap p = none) :
    (a.handle m p h mws).mux = a.mux ++ [p] := by
  simp [Application.handle, hc]

theorem handle_mux_of_some (a : Application) (m p : String) (h : HandlerFunc)
    (mws : List Middleware) {tbl : methodHandlerMap}
    (hc : mapGet a.pathMethodHandlerMap p = some tbl) :
    (a.handle m p h mws).mux = a.mux := by
  simp [Application.handle, hc]

theorem mem_mux_handle (a : Application) (m p : String) (h : HandlerFunc)
    (mws : List Middleware) (hcov : muxCovers a) :
    p ∈ (a.handle m p h mws).mux := by
  cases hc : mapGet a.pathMethodHandlerMap p with
  | none =>
      rw [handle_mux_of_none a m p h mws hc]
      simp
  | some tbl =>
      rw [handle_mux_of_some a m p h mws hc]
      exact hcov p (by simp [hc])

theorem muxCovers_handle (a : Application) (m p : String) (h : HandlerFunc)
    (mws : List Middleware) (hcov : muxCovers a) :
    muxCovers (a.handle m p h mws) := by
  intro q hq
  by_cases hqp : q = p
  · subst hqp
    exact mem_mux_handle a m q h mws hcov
  · rw [handle_pm_other a m p h mws q hqp] at hq
    have hmem := hcov q hq
    cases hc : mapGet a.pathMethodHandlerMap p with
    | none =>
        rw [handle_mux_of_none a m p h mws hc]
        exact List.mem_append_left _ hmem
    | some tbl =>
        rw [handle_mux_of_some a m p h mws hc]
        exact hmem

theorem muxCovers_withGlobal (a : Application) (mws : List Middleware)
    (hcov : muxCovers a) : muxCovers (a.WithGlobalMiddlewares mws) := hcov

theorem dispatch_after_handle (a : Application) (m p : String) (h : HandlerFunc)
    (mws : List Middleware) (r : Request) (w : ResponseWriter)
    (hcov : muxCovers a) (hp : r.path = p) (hm : r.method = m) :
    serveMux (a.handle m p h mws) r w = some ((a.middleware h mws).invoke r w) := by
  subst hp hm
  have hmem : r.path ∈ (a.handle r.method r.path h mws).mux :=
    mem_mux_handle a r.method r.path h mws hcov
  simp [serveMux, hmem, Application.dispatchCallback,
    handle_pm_self, mapGet_mapSet_self]

/-! ## Lemmas about the Allow-header join -/

theorem string_append_ne_empty_left (s t : String) (hs : s ≠ "") : s ++ t ≠ "" := by
  intro hst
  apply hs
  have hd : (s ++ t).data = ("" : String).data := by rw [hst]
  rw [String.data_append] at hd
  have hsd : s.data = [] := (List.append_eq_nil.mp hd).1
  cases s with
  | mk d =>
      cases hsd
      rfl

theorem joinMethods_cons_eq (m : String) (ms : List String) :
    joinMethods (m :: ms) = m ++ joinTail ms := by
  induction ms generalizing m with
  | nil => simp [joinMethods, joinTail]
  | cons m2 ms ih =>
      rw [show joinMethods (m :: m2 :: ms) = m ++ ", " ++ joinMethods (m2 :: ms) from rfl,
        ih, show joinTail (m2 :: ms) = ", " ++ m2 ++ joinTail ms from rfl]
      simp [String.append_assoc]

theorem foldl_allowed_join (ms : List String) (acc : String) (hacc : acc ≠ "") :
    ms.foldl (fun methods mm => (if methods = "" then methods else methods ++ ", ") ++ mm) acc
      = acc ++ joinTail ms := by
  induction ms generalizing acc with
  | nil => simp [joinTail]
  | cons m ms ih =>
      rw [List.foldl_cons, if_neg hacc,
        ih _ (string_append_ne_empty_left _ _ (string_append_ne_empty_left _ _ hacc)),
        show joinTail (m :: ms) = ", " ++ m ++ joinTail ms from rfl]
      simp [String.append_assoc]

theorem foldl_join_eq_joinMethods (ms : List String) (hms : ∀ x ∈ ms, x ≠ "") :
    ms.foldl (fun methods mm => (if methods = "" then methods else methods ++ ", ") ++ mm) ""
      = joinMethods ms := by
  cases ms with
  | nil => rfl
  | cons m ms =>
      rw [List.foldl_cons, if_pos rfl, String.empty_append,
        foldl_allowed_join ms m (hms m (by simp)), joinMethods_cons_eq]

theorem joinMethods_ne_empty (ms : List String) (hne : ms ≠ [])
    (hms : ∀ x ∈ ms, x ≠ "") : joinMethods ms ≠ "" := by
  cases ms with
  | nil => exact absurd rfl hne
  | cons m ms =>
      rw [joinMethods_cons_eq]
      exact string_append_ne_empty_left _ _ (hms m (by simp))

theorem supported_ne_empty (m : String) (hm : m ∈ supportedMethods) : m ≠ "" := by
  simp only [supportedMethods, MethodGet, MethodPost, MethodPut, MethodPatch,
    MethodDelete, List.mem_cons, List.mem_singleton, List.not_mem_nil, or_false] at hm
  rcases hm with h | h | h | h | h <;> subst h <;> decide

theorem allowedMethods_eq_joinMethods (a : Application) (p : String)
    (hms : ∀ m ∈ ((mapGet a.pathMethodHandlerMap p).getD []).map Prod.fst, m ≠ "") :
    a.allowedMethods p
      = joinMethods (((mapGet a.pathMethodHandlerMap p).getD []).map Prod.fst) := by
  rw [Application.allowedMethods, ← foldl_join_eq_joinMethods _ hms, List.foldl_map]

/-! ## The invariant of API-reachable router states -/

theorem routerInv_new : RouterInv NewApplication := by
  refine ⟨?_, ?_, ?_, ?_, ?_⟩ <;> simp [NewApplication, mapGet]

theorem routerInv_withGlobal (a : Application) (mws : List Middleware)
    (hi : RouterInv a) : RouterInv (a.WithGlobalMiddlewares mws) := by
  obtain ⟨h1, h2, h3, h4, h5⟩ := hi
  exact ⟨h1, h2, h3, h4, h5⟩

theorem routerInv_handle (a : Application) (m p : String) (h : HandlerFunc)
    (mws : List Middleware) (hi : RouterInv a) (hm : m ∈ supportedMethods) :
    RouterInv (a.handle m p h mws) := by
  have hkeys : ((mapGet a.pathMethodHandlerMap p).getD []).map Prod.fst
      = ((mapGet a.pathMethodHandlerMap p).getD []).map Prod.fst := rfl
  refine ⟨?_, ?_, ?_, ?_, ?_⟩
  · intro q
    by_cases hq : q = p
    · subst hq
      rw [handle_pm_self]
      cases hc : mapGet a.pathMethodHandlerMap q with
      | none =>
          rw [handle_mux_of_none a m q h mws hc]
          simp
      | some tbl =>
          rw [handle_mux_of_some a m q h mws hc]
          simp [(hi.mux_iff q).mpr (by simp [hc])]
    · rw [handle_pm_other a m p h mws q hq]
      cases hc : mapGet a.pathMethodHandlerMap p with
      | none =>
          rw [handle_mux_of_none a m p h mws hc]
          simp [hq, hi.mux_iff q]
      | some tbl =>
          rw [handle_mux_of_some a m p h mws hc]
          exact hi.mux_iff q
  · cases hc : mapGet a.pathMethodHandlerMap p with
    | none =>
        rw [handle_mux_of_none a m p h mws hc]
        have hnp : p ∉ a.mux := by
          intro hmem
          have := (hi.mux_iff p).mp hmem
          simp [hc] at this
        simp [List.nodup_append, hi.mux_nodup, hnp]
    | some tbl =>
        rw [handle_mux_of_some a m p h mws hc]
        exact hi.mux_nodup
  · intro q tbl' hq'
    by_cases hq : q = p
    · subst hq
      rw [handle_pm_self] at hq'
      cases hq'
      exact mapSet_ne_nil _ _ _
    · rw [handle_pm_other a m p h mws q hq] at hq'
      exact hi.tbl_ne q tbl' hq'
  · intro q tbl' hq'
    by_cases hq : q = p
    · subst hq
      rw [handle_pm_self] at hq'
      cases hq'
      rw [keys_mapSet]
      cases hc : mapGet a.pathMethodHandlerMap q with
      | none =>
          simp [mapGet]
      | some tbl =>
          have hnd := hi.keys_nodup q tbl hc
          split
          · simpa [hc] using hnd
          · rename_i hno
            have hnotmem : m ∉ tbl.map Prod.fst := by
              intro hmem
              exact hno (by simpa [hc] using (mapGet_isSome_iff tbl m).mpr hmem)
            simp only [hc, Option.getD_some]
            simp [List.nodup_append, hnd, hnotmem]
    · rw [handle_pm_other a m p h mws q hq] at hq'
      exact hi.keys_nodup q tbl' hq'
  · intro q tbl' hq'
    by_cases hq : q = p
    · subst hq
      rw [handle_pm_self] at hq'
      cases hq'
      intro x hx
      rw [keys_mapSet] at hx
      have hold : ∀ y ∈ ((mapGet a.pathMethodHandlerMap q).getD []).map Prod.fst,
          y ∈ supportedMethods := by
        cases hc : mapGet a.pathMethodHandlerMap q with
        | none => simp
        | some tbl => simpa [hc] using hi.keys_supported q tbl hc
      rcases (by split at hx <;> simp_all :
          x ∈ ((mapGet a.pathMethodHandlerMap q).getD []).map Prod.fst ∨ x = m) with hx' | hx'
      · exact hold x hx'
      · subst hx'
        exact hm
    · rw [handle_pm_other a m p h mws q hq] at hq'
      exact hi.keys_supported q tbl' hq'

theorem reachable_routerInv {a : Application} (hr : Reachable a) : RouterInv a := by
  induction hr with
  | new => exact routerInv_new
  | step _ hstep ih =>
      cases hstep with
      | withGlobal mws => exact routerInv_withGlobal _ mws ih
      | get p h mws => exact routerInv_handle _ MethodGet p h mws ih (by simp [supportedMethods])
      | post p h mws => exact routerInv_handle _ MethodPost p h mws ih (by simp [supportedMethods])
      | put p h mws => exact routerInv_handle _ MethodPut p h mws ih (by simp [supportedMethods])
      | patch p h mws => exact routerInv_handle _ MethodPatch p h mws ih (by simp [supportedMethods])
      | delete p h mws => exact routerInv_handle _ MethodDelete p h mws ih (by simp [supportedMethods])

theorem routerInv_muxCovers {a : Application} (hi : RouterInv a) : muxCovers a :=
  fun q hq => (hi.mux_iff q).mpr hq

theorem publicStep_mono {a a' : Application} (hstep : PublicStep a a') (p m : String)
    (hreg : methodRegistered a p m = true) : methodRegistered a' p m = true := by
  have hgen : ∀ (m' p' : String) (h : HandlerFunc) (mws : List Middleware),
      methodRegistered (a.handle m' p' h mws) p m = true := by
    intro m' p' h mws
    unfold methodRegistered at hreg ⊢
    by_cases hq : p = p'
    · subst hq
      rw [handle_pm_self]
      exact mapGet_mapSet_isSome _ _ _ _ hreg
    · rw [handle_pm_other a m' p' h mws p hq]
      exact hreg
  cases hstep with
  | withGlobal mws => exact hreg
  | get p' h mws => exact hgen MethodGet p' h mws
  | post p' h mws => exact hgen MethodPost p' h mws
  | put p' h mws => exact hgen MethodPut p' h mws
  | patch p' h mws => exact hgen MethodPatch p' h mws
  | delete p' h mws => exact hgen MethodDelete p' h mws

/-! ## Dispatch helper lemmas -/

theorem serveMux_mem (a : Application) (r : Request) (w : ResponseWriter)
    (hmem : r.path ∈ a.mux) :
    serveMux a r w = some (a.dispatchCallback r.path r w) := by
  simp [serveMux, hmem]

theorem dispatchCallback_found (a : Application) (p : String) (r : Request)
    (w : ResponseWriter) {tbl : methodHandlerMap} {h : HandlerFunc}
    (htbl : mapGet a.pathMethodHandlerMap p = some tbl)
    (hfound : mapGet tbl r.method = some h) :
    a.dispatchCallback p r w = h.invoke r w := by
  simp [Application.dispatchCallback, htbl, hfound]

theorem dispatchCallback_notfound (a : Application) (p : String) (r : Request)
    (w : ResponseWriter)
    (hmiss : mapGet ((mapGet a.pathMethodHandlerMap p).getD []) r.method = none) :
    a.dispatchCallback p r w
      = .ok (httpError { w with headers := setHeader w.headers "Allow" (a.allowedMethods p) }
          "Method Not Allowed" 405) := by
  simp [Application.dispatchCallback, hmiss]

theorem dispatch_after_handle_skip (a : Application) (m2 p : String)
    (h2 : HandlerFunc) (mws2 : List Middleware) (r : Request) (w : ResponseWriter)
    (hcov : muxCovers a) (hne : r.method ≠ m2) (hp : r.path = p)
    {h : HandlerFunc}
    (hfound : mapGet ((mapGet a.pathMethodHandlerMap p).getD []) r.method = some h) :
    serveMux (a.handle m2 p h2 mws2) r w = some (h.invoke r w) := by
  have hmem := mem_mux_handle a m2 p h2 mws2 hcov
  rw [serveMux_mem _ _ _ (hp ▸ hmem), hp,
    dispatchCallback_found _ _ _ _ (handle_pm_self a m2 p h2 mws2)
      (by rw [mapGet_mapSet_ne _ _ _ _ hne]; exact hfound)]

/-! ## Claim theorems -/

/-- Claim C1: after a route is registered through `handle` (the five verb
entry points delegate to it), a request with matching path and method executes
the chain in order — global middleware outermost to innermost, then route
middleware outermost to innermost (the first element of each list being the
outermost wrapper), then the terminal handler; and a middleware that does not
invoke the next step cuts off everything nested inside it while the wrappers
outside it still ran. -/
theorem handle_chain_order (a : Application) (gs rs rs1 rs2 : List String)
    (p m hn sn : String) (r : Request) (w : ResponseWriter)
    (hcov : muxCovers a) (hmws : a.mws = gs.map logMw)
    (hp : r.path = p) (hm : r.method = m) :
    serveMux (a.handle m p (logHandler hn) (rs.map logMw)) r w
      = some (.ok { w with log := w.log ++ gs ++ rs ++ [hn] })
    ∧ serveMux (a.handle m p (logHandler hn)
        (rs1.map logMw ++ stopMw sn :: rs2.map logMw)) r w
      = some (.ok { w with log := w.log ++ gs ++ rs1 ++ [sn] }) := by
  constructor
  · rw [dispatch_after_handle a m p (logHandler hn) (rs.map logMw) r w hcov hp hm]
    simp only [Application.middleware, hmws]
    rw [applyMiddleware_logMw, applyMiddleware_logMw]
    rfl
  · rw [dispatch_after_handle a m p (logHandler hn)
      (rs1.map logMw ++ stopMw sn :: rs2.map logMw) r w hcov hp hm]
    simp only [Application.middleware, hmws]
    rw [applyMiddleware_append, applyMiddleware_logMw, applyMiddleware_logMw,
      applyMiddleware_stopMw]

theorem handle_chain_order_witness :
    muxCovers (NewApplication.WithGlobalMiddlewares [logMw "G"])
    ∧ (serveMux ((NewApplication.WithGlobalMiddlewares [logMw "G"]).handle "GET" "/x"
          (logHandler "H") (["A"].map logMw)) ⟨"GET", "/x"⟩ emptyResponse
        = some (.ok { emptyResponse with
            log := emptyResponse.log ++ ["G"] ++ ["A"] ++ ["H"] })
      ∧ serveMux ((NewApplication.WithGlobalMiddlewares [logMw "G"]).handle "GET" "/x"
          (logHandler "H")
          (([] : List String).map logMw ++ stopMw "S" :: ([] : List String).map logMw))
          ⟨"GET", "/x"⟩ emptyResponse
        = some (.ok { emptyResponse with
            log := emptyResponse.log ++ ["G"] ++ [] ++ ["S"] })) := by
  have hcov : muxCovers (NewApplication.WithGlobalMiddlewares [logMw "G"]) := by
    intro q hq
    simp [NewApplication, Application.WithGlobalMiddlewares, mapGet] at hq
  exact ⟨hcov, handle_chain_order (NewApplication.WithGlobalMiddlewares [logMw "G"])
    ["G"] ["A"] [] [] "/x" "GET" "H" "S" ⟨"GET", "/x"⟩ emptyResponse hcov rfl rfl rfl⟩

/-- Claim C4: registering the same `(path, method)` pair twice raises no error
(registration is a total operation in the model, as in the code) and the
second registration replaces the first: a matching request invokes exactly the
chain composed from `h2`, for every `h1` — so `h1`'s chain is never used. -/
theorem handle_last_registration_wins (a : Application) (p m : String)
    (h1 h2 : HandlerFunc) (mws1 mws2 : List Middleware) (r : Request)
    (w : ResponseWriter) (hcov : muxCovers a) (hp : r.path = p) (hm : r.method = m) :
    serveMux ((a.handle m p h1 mws1).handle m p h2 mws2) r w
      = some ((a.middleware h2 mws2).invoke r w) := by
  rw [dispatch_after_handle _ m p h2 mws2 r w (muxCovers_handle a m p h1 mws1 hcov) hp hm,
    middleware_congr_mws (handle_mws a m p h1 mws1) h2 mws2]

theorem handle_last_registration_wins_witness :
    muxCovers NewApplication
    ∧ serveMux ((NewApplication.handle "GET" "/t" (logHandler "h1") []).handle "GET" "/t"
        (logHandler "h2") []) ⟨"GET", "/t"⟩ emptyResponse
      = some ((NewApplication.middleware (logHandler "h2") []).invoke ⟨"GET", "/t"⟩
          emptyResponse) := by
  have hcov : muxCovers NewApplication := by
    intro q hq
    simp [NewApplication, mapGet] at hq
  exact ⟨hcov, handle_last_registration_wins NewApplication "/t" "GET" (logHandler "h1")
    (logHandler "h2") [] [] ⟨"GET", "/t"⟩ emptyResponse hcov rfl rfl⟩

/-- Claim C5 (method isolation): with two different methods registered on the
same path, in either registration order, a request using `m1` invokes `h1`'s
full composed chain and never `h2`'s. -/
theorem method_isolation (a : Application) (p m1 m2 : String) (h1 h2 : HandlerFunc)
    (mws1 mws2 : List Middleware) (r : Request) (w : ResponseWriter)
    (hcov : muxCovers a) (hne : m1 ≠ m2) (hp : r.path = p) (hm : r.method = m1) :
    serveMux ((a.handle m1 p h1 mws1).handle m2 p h2 mws2) r w
      = some ((a.middleware h1 mws1).invoke r w)
    ∧ serveMux ((a.handle m2 p h2 mws2).handle m1 p h1 mws1) r w
      = some ((a.middleware h1 mws1).invoke r w) := by
  constructor
  · apply dispatch_after_handle_skip _ m2 p h2 mws2 r w
      (muxCovers_handle a m1 p h1 mws1 hcov) (hm ▸ hne) hp
    rw [handle_pm_self a m1 p h1 mws1, Option.getD_some, hm, mapGet_mapSet_self]
  · rw [dispatch_after_handle _ m1 p h1 mws1 r w
      (muxCovers_handle a m2 p h2 mws2 hcov) hp hm,
      middleware_congr_mws (handle_mws a m2 p h2 mws2) h1 mws1]

theorem method_isolation_witness :
    muxCovers NewApplication
    ∧ ("GET" : String) ≠ "POST"
    ∧ (serveMux ((NewApplication.handle "GET" "/f" (logHandler "h1") []).handle "POST" "/f"
          (logHandler "h2") []) ⟨"GET", "/f"⟩ emptyResponse
        = some ((NewApplication.middleware (logHandler "h1") []).invoke ⟨"GET", "/f"⟩
            emptyResponse)
      ∧ serveMux ((NewApplication.handle "POST" "/f" (logHandler "h2") []).handle "GET" "/f"
          (logHandler "h1") []) ⟨"GET", "/f"⟩ emptyResponse
        = some ((NewApplication.middleware (logHandler "h1") []).invoke ⟨"GET", "/f"⟩
            emptyResponse)) := by
  have hcov : muxCovers NewApplication := by
    intro q hq
    simp [NewApplication, mapGet] at hq
  exact ⟨hcov, by decide, method_isolation NewApplication "/f" "GET" "POST"
    (logHandler "h1") (logHandler "h2") [] [] ⟨"GET", "/f"⟩ emptyResponse hcov
    (by decide) rfl rfl⟩

/-- Claim C7: `WithGlobalMiddlewares` mutates only the global middleware list,
appending the given middleware in the order given and returning the router;
the route table — hence every handler chain already composed, eagerly, at
registration time — and the installed mux patterns are untouched, so global
middleware added after a route was registered does not apply to that route. -/
theorem withGlobalMiddlewares_frame (a : Application) (mws : List Middleware) :
    (a.WithGlobalMiddlewares mws).pathMethodHandlerMap = a.pathMethodHandlerMap
    ∧ (a.WithGlobalMiddlewares mws).mux = a.mux
    ∧ (a.WithGlobalMiddlewares mws).mws = a.mws ++ mws :=
  ⟨rfl, rfl, rfl⟩

/-- Claim C8: registering an absent (nil) terminal handler succeeds, the
method counts as registered (the lookup finds the entry), and a later matching
request whose middleware chain invokes through to the terminal step halts
abnormally with a runtime fault that the router does not catch or swallow. -/
theorem handle_nil_handler (a : Application) (gs rs : List String) (p m : String)
    (r : Request) (w : ResponseWriter) (hcov : muxCovers a)
    (hmws : a.mws = gs.map logMw) (hp : r.path = p) (hm : r.method = m) :
    methodRegistered (a.handle m p .nil (rs.map logMw)) p m = true
    ∧ serveMux (a.handle m p .nil (rs.map logMw)) r w = some (.error ()) := by
  constructor
  · unfold methodRegistered
    rw [handle_pm_self, Option.getD_some, mapGet_mapSet_self]
    rfl
  · rw [dispatch_after_handle a m p .nil (rs.map logMw) r w hcov hp hm]
    simp only [Application.middleware, hmws]
    rw [applyMiddleware_logMw, applyMiddleware_logMw]
    rfl

theorem handle_nil_handler_witness :
    muxCovers NewApplication
    ∧ (methodRegistered (NewApplication.handle "GET" "/n" .nil
          (([] : List String).map logMw)) "/n" "GET" = true
      ∧ serveMux (NewApplication.handle "GET" "/n" .nil (([] : List String).map logMw))
          ⟨"GET", "/n"⟩ emptyResponse = some (.error ())) := by
  have hcov : muxCovers NewApplication := by
    intro q hq
    simp [NewApplication, mapGet] at hq
  exact ⟨hcov, handle_nil_handler NewApplication [] [] "/n" "GET" ⟨"GET", "/n"⟩
    emptyResponse hcov rfl rfl rfl⟩

/-- Claim C2: a request to a path with a (necessarily non-empty) method table,
using a method not registered for it, receives status exactly 405, a response
header `Allow` whose value is the comma-and-space join of the methods
registered for the path, and a body that is exactly the text
"Method Not Allowed" followed by a single trailing newline. -/
theorem dispatch_405 (a : Application) (r : Request) (tbl : methodHandlerMap)
    (hreach : Reachable a)
    (htbl : mapGet a.pathMethodHandlerMap r.path = some tbl)
    (hmiss : mapGet tbl r.method = none) :
    ∃ w', serveMux a r emptyResponse = some (.ok w')
      ∧ w'.status = some 405
      ∧ mapGet w'.headers "Allow" = some (joinMethods (tbl.map Prod.fst))
      ∧ w'.body = "Method Not Allowed\n" := by
  have hi := reachable_routerInv hreach
  have hmem : r.path ∈ a.mux := (hi.mux_iff r.path).mpr (by simp [htbl])
  rw [serveMux_mem a r emptyResponse hmem,
    dispatchCallback_notfound a r.path r emptyResponse (by simp [htbl, hmiss])]
  refine ⟨_, rfl, rfl, ?_, ?_⟩
  · have h1 : ("Allow" : String) ≠ "X-Content-Type-Options" := by decide
    have h2 : ("Allow" : String) ≠ "Content-Type" := by decide
    simp only [httpError, setHeader]
    rw [mapGet_mapSet_ne _ _ _ _ h1, mapGet_mapSet_ne _ _ _ _ h2, mapGet_mapSet_self]
    have hms : ∀ x ∈ ((mapGet a.pathMethodHandlerMap r.path).getD []).map Prod.fst,
        x ≠ "" := fun x hx =>
      supported_ne_empty x (hi.keys_supported r.path tbl htbl x (by simpa [htbl] using hx))
    rw [allowedMethods_eq_joinMethods a r.path hms, htbl, Option.getD_some]
  · show ("" : String) ++ "Method Not Allowed" ++ "\n" = "Method Not Allowed\n"
    decide

theorem dispatch_405_witness :
    Reachable (NewApplication.Get "/foo" (logHandler "H") [])
    ∧ mapGet (NewApplication.Get "/foo" (logHandler "H") []).pathMethodHandlerMap "/foo"
        = some [("GET", logHandler "H")]
    ∧ mapGet [("GET", logHandler "H")] "DELETE" = none
    ∧ ∃ w', serveMux (NewApplication.Get "/foo" (logHandler "H") []) ⟨"DELETE", "/foo"⟩
          emptyResponse = some (.ok w')
        ∧ w'.status = some 405
        ∧ mapGet w'.headers "Allow"
            = some (joinMethods ([("GET", logHandler "H")].map Prod.fst))
        ∧ w'.body = "Method Not Allowed\n" := by
  have hr : Reachable (NewApplication.Get "/foo" (logHandler "H") []) :=
    Reachable.step Reachable.new (PublicStep.get NewApplication "/foo" (logHandler "H") [])
  exact ⟨hr, rfl, rfl, dispatch_405 (NewApplication.Get "/foo" (logHandler "H") [])
    ⟨"DELETE", "/foo"⟩ [("GET", logHandler "H")] hr rfl rfl⟩

/-- Claim C3: in every API-reachable router state and for every path, the
allowed-methods string is the comma-and-space join — no trailing separator,
empty string when nothing is registered — of a duplicate-free list containing
exactly the methods registered for that path (the order within the list is
whatever the table holds, i.e. unspecified). -/
theorem allowedMethods_complete (a : Application) (p : String) (hreach : Reachable a) :
    ∃ ms : List String,
      a.allowedMethods p = joinMethods ms
      ∧ ms.Nodup
      ∧ (∀ m, m ∈ ms ↔ methodRegistered a p m = true)
      ∧ (mapGet a.pathMethodHandlerMap p = none → a.allowedMethods p = "") := by
  have hi := reachable_routerInv hreach
  refine ⟨((mapGet a.pathMethodHandlerMap p).getD []).map Prod.fst, ?_, ?_, ?_, ?_⟩
  · apply allowedMethods_eq_joinMethods
    intro x hx
    cases hc : mapGet a.pathMethodHandlerMap p with
    | none => simp [hc] at hx
    | some tbl =>
        exact supported_ne_empty x (hi.keys_supported p tbl hc x (by simpa [hc] using hx))
  · cases hc : mapGet a.pathMethodHandlerMap p with
    | none => simp [hc]
    | some tbl => simpa [hc] using hi.keys_nodup p tbl hc
  · intro m
    unfold methodRegistered
    exact (mapGet_isSome_iff _ m).symm
  · intro hc
    simp [Application.allowedMethods, hc]

theorem allowedMethods_complete_witness :
    Reachable ((NewApplication.Get "/foo" (logHandler "H") []).Post "/foo"
      (logHandler "H2") [])
    ∧ ∃ ms : List String,
        ((NewApplication.Get "/foo" (logHandler "H") []).Post "/foo"
            (logHandler "H2") []).allowedMethods "/foo" = joinMethods ms
        ∧ ms.Nodup
        ∧ (∀ m, m ∈ ms ↔ methodRegistered ((NewApplication.Get "/foo" (logHandler "H") []).Post
            "/foo" (logHandler "H2") []) "/foo" m = true)
        ∧ (mapGet ((NewApplication.Get "/foo" (logHandler "H") []).Post "/foo"
              (logHandler "H2") []).pathMethodHandlerMap "/foo" = none →
            ((NewApplication.Get "/foo" (logHandler "H") []).Post "/foo"
              (logHandler "H2") []).allowedMethods "/foo" = "") := by
  have hr : Reachable ((NewApplication.Get "/foo" (logHandler "H") []).Post "/foo"
      (logHandler "H2") []) :=
    Reachable.step
      (Reachable.step Reachable.new (PublicStep.get NewApplication "/foo" (logHandler "H") []))
      (PublicStep.post (NewApplication.Get "/foo" (logHandler "H") []) "/foo"
        (logHandler "H2") [])
  exact ⟨hr, allowedMethods_complete _ "/foo" hr⟩

/-- Claim C6: in every API-reachable state, a path has a method table exactly
when its dispatch callback has been installed on the mux; the callback is
installed exactly once per distinct path (the installed pattern list is
duplicate-free no matter how many methods are later added); every existing
method table is non-empty; each per-path method table is created empty on
first registration — right after the first registration for a path it holds
exactly the one composed binding just inserted — and thereafter grows only by
insertion: a later registration for the path turns table `tbl` into exactly
`mapSet tbl m composed` (one binding inserted or replaced in place, nothing
else touched), and it never shrinks — a registered method survives every
further public API call. -/
theorem routes_mux_invariant (a : Application) (hreach : Reachable a) :
    (∀ p, (mapGet a.pathMethodHandlerMap p).isSome = true ↔ p ∈ a.mux)
    ∧ a.mux.Nodup
    ∧ (∀ p tbl, mapGet a.pathMethodHandlerMap p = some tbl → tbl ≠ [])
    ∧ (∀ m p h mws, mapGet a.pathMethodHandlerMap p = none →
        mapGet (a.handle m p h mws).pathMethodHandlerMap p
          = some [(m, a.middleware h mws)])
    ∧ (∀ m p h mws tbl, mapGet a.pathMethodHandlerMap p = some tbl →
        mapGet (a.handle m p h mws).pathMethodHandlerMap p
          = some (mapSet tbl m (a.middleware h mws)))
    ∧ (∀ m p h mws q, q ≠ p →
        mapGet (a.handle m p h mws).pathMethodHandlerMap q
          = mapGet a.pathMethodHandlerMap q)
    ∧ (∀ a' p m, PublicStep a a' → methodRegistered a p m = true →
        methodRegistered a' p m = true) := by
  have hi := reachable_routerInv hreach
  refine ⟨fun p => (hi.mux_iff p).symm, hi.mux_nodup, hi.tbl_ne, ?_, ?_, ?_,
    fun a' p m hstep hreg => publicStep_mono hstep p m hreg⟩
  · intro m p h mws hc
    rw [handle_pm_self a m p h mws, hc]
    rfl
  · intro m p h mws tbl hc
    rw [handle_pm_self a m p h mws, hc]
    rfl
  · intro m p h mws q hq
    exact handle_pm_other a m p h mws q hq

theorem routes_mux_invariant_witness :
    Reachable (NewApplication.Get "/a" (logHandler "H") [])
    ∧ ((∀ p, (mapGet (NewApplication.Get "/a" (logHandler "H") []).pathMethodHandlerMap p).isSome
          = true ↔ p ∈ (NewApplication.Get "/a" (logHandler "H") []).mux)
      ∧ (NewApplication.Get "/a" (logHandler "H") []).mux.Nodup
      ∧ (∀ p tbl, mapGet (NewApplication.Get "/a" (logHandler "H") []).pathMethodHandlerMap p
          = some tbl → tbl ≠ [])
      ∧ (∀ m p h mws, mapGet (NewApplication.Get "/a" (logHandler "H")
            []).pathMethodHandlerMap p = none →
          mapGet ((NewApplication.Get "/a" (logHandler "H") []).handle m p h
              mws).pathMethodHandlerMap p
            = some [(m, (NewApplication.Get "/a" (logHandler "H") []).middleware h mws)])
      ∧ (∀ m p h mws tbl, mapGet (NewApplication.Get "/a" (logHandler "H")
            []).pathMethodHandlerMap p = some tbl →
          mapGet ((NewApplication.Get "/a" (logHandler "H") []).handle m p h
              mws).pathMethodHandlerMap p
            = some (mapSet tbl m ((NewApplication.Get "/a" (logHandler "H") []).middleware
                h mws)))
      ∧ (∀ m p h mws q, q ≠ p →
          mapGet ((NewApplication.Get "/a" (logHandler "H") []).handle m p h
              mws).pathMethodHandlerMap q
            = mapGet (NewApplication.Get "/a" (logHandler "H") []).pathMethodHandlerMap q)
      ∧ (∀ a' p m, PublicStep (NewApplication.Get "/a" (logHandler "H") []) a' →
          methodRegistered (NewApplication.Get "/a" (logHandler "H") []) p m = true →
          methodRegistered a' p m = true)) := by
  have hr : Reachable (NewApplication.Get "/a" (logHandler "H") []) :=
    Reachable.step Reachable.new (PublicStep.get NewApplication "/a" (logHandler "H") [])
  exact ⟨hr, routes_mux_invariant _ hr⟩

/-- Claim C9: whenever the dispatch callback takes the 405 branch in a
reachable state (the path's callback is installed, the request method is not
in the table), the `Allow` value it writes is non-empty — the callback exists
only for paths with at least one registered method, and tables never shrink. -/
theorem allow_nonempty_on_405 (a : Application) (r : Request) (w : ResponseWriter)
    (hreach : Reachable a) (hmem : r.path ∈ a.mux)
    (hmiss : mapGet ((mapGet a.pathMethodHandlerMap r.path).getD []) r.method = none) :
    serveMux a r w
      = some (.ok (httpError
          { w with headers := setHeader w.headers "Allow" (a.allowedMethods r.path) }
          "Method Not Allowed" 405))
    ∧ a.allowedMethods r.path ≠ "" := by
  have hi := reachable_routerInv hreach
  obtain ⟨tbl, htbl⟩ := Option.isSome_iff_exists.mp ((hi.mux_iff r.path).mp hmem)
  constructor
  · rw [serveMux_mem a r w hmem, dispatchCallback_notfound a r.path r w hmiss]
  · have hms : ∀ x ∈ ((mapGet a.pathMethodHandlerMap r.path).getD []).map Prod.fst,
        x ≠ "" := fun x hx =>
      supported_ne_empty x (hi.keys_supported r.path tbl htbl x (by simpa [htbl] using hx))
    have hkeys : ((mapGet a.pathMethodHandlerMap r.path).getD []).map Prod.fst
        = tbl.map Prod.fst := by rw [htbl, Option.getD_some]
    rw [allowedMethods_eq_joinMethods a r.path hms, hkeys]
    apply joinMethods_ne_empty
    · intro hmapnil
      exact hi.tbl_ne r.path tbl htbl (List.map_eq_nil_iff.mp hmapnil)
    · intro x hx
      exact supported_ne_empty x (hi.keys_supported r.path tbl htbl x hx)

theorem allow_nonempty_on_405_witness :
    Reachable (NewApplication.Get "/foo2" (logHandler "H") [])
    ∧ "/foo2" ∈ (NewApplication.Get "/foo2" (logHandler "H") []).mux
    ∧ mapGet ((mapGet (NewApplication.Get "/foo2" (logHandler "H")
        []).pathMethodHandlerMap "/foo2").getD []) "POST" = none
    ∧ (serveMux (NewApplication.Get "/foo2" (logHandler "H") []) ⟨"POST", "/foo2"⟩
          emptyResponse
        = some (.ok (httpError
            { emptyResponse with
              headers :=
                setHeader emptyResponse.headers "Allow"
                  ((NewApplication.Get "/foo2" (logHandler "H") []).allowedMethods "/foo2") }
            "Method Not Allowed" 405))
      ∧ (NewApplication.Get "/foo2" (logHandler "H") []).allowedMethods "/foo2" ≠ "") := by
  have hr : Reachable (NewApplication.Get "/foo2" (logHandler "H") []) :=
    Reachable.step Reachable.new (PublicStep.get NewApplication "/foo2" (logHandler "H") [])
  have hmem : "/foo2" ∈ (NewApplication.Get "/foo2" (logHandler "H") []).mux := by
    show "/foo2" ∈ [] ++ ["/foo2"]
    simp
  exact ⟨hr, hmem, rfl, allow_nonempty_on_405 (NewApplication.Get "/foo2" (logHandler "H") [])
    ⟨"POST", "/foo2"⟩ emptyResponse hr hmem rfl⟩

/-- Claim C10: the five public entry points register exactly the canonical
uppercase method strings, and dispatch compares the request's method to the
stored method names by exact, case-sensitive string equality — so in a
reachable state a request whose method is a lowercase variant of a supported
verb receives the 405 response, never a registered handler. -/
theorem method_lookup_case_sensitive (a : Application) (r : Request) (w : ResponseWriter)
    (hreach : Reachable a) (hmem : r.path ∈ a.mux)
    (hlow : r.method ∈ ["get", "post", "put", "patch", "delete"]) :
    (∀ (b : Application) (p : String) (h : HandlerFunc) (mws : List Middleware),
      b.Get p h mws = b.handle "GET" p h mws
      ∧ b.Post p h mws = b.handle "POST" p h mws
      ∧ b.Put p h mws = b.handle "PUT" p h mws
      ∧ b.Patch p h mws = b.handle "PATCH" p h mws
      ∧ b.Delete p h mws = b.handle "DELETE" p h mws)
    ∧ ∃ w', serveMux a r w = some (.ok w') ∧ w'.status = some 405 := by
  refine ⟨fun b p h mws => ⟨rfl, rfl, rfl, rfl, rfl⟩, ?_⟩
  have hi := reachable_routerInv hreach
  obtain ⟨tbl, htbl⟩ := Option.isSome_iff_exists.mp ((hi.mux_iff r.path).mp hmem)
  have hmiss : mapGet tbl r.method = none := by
    cases hmg : mapGet tbl r.method with
    | none => rfl
    | some hh =>
        exfalso
        have hsome : (mapGet tbl r.method).isSome = true := by rw [hmg]; rfl
        have hmemk := (mapGet_isSome_iff tbl r.method).mp hsome
        have hsup := hi.keys_supported r.path tbl htbl r.method hmemk
        simp only [supportedMethods, MethodGet, MethodPost, MethodPut, MethodPatch,
          MethodDelete, List.mem_cons, List.not_mem_nil, or_false] at hsup
        simp only [List.mem_cons, List.not_mem_nil, or_false] at hlow
        rcases hlow with h | h | h | h | h <;> rw [h] at hsup <;>
          exact absurd hsup (by decide)
  rw [serveMux_mem a r w hmem, dispatchCallback_notfound a r.path r w ?later]
  case later => simp [htbl, hmiss]
  exact ⟨_, rfl, rfl⟩

theorem method_lookup_case_sensitive_witness :
    Reachable (NewApplication.Get "/c" (logHandler "H") [])
    ∧ "/c" ∈ (NewApplication.Get "/c" (logHandler "H") []).mux
    ∧ ("get" : String) ∈ ["get", "post", "put", "patch", "delete"]
    ∧ ((∀ (b : Application) (p : String) (h : HandlerFunc) (mws : List Middleware),
        b.Get p h mws = b.handle "GET" p h mws
        ∧ b.Post p h mws = b.handle "POST" p h mws
        ∧ b.Put p h mws = b.handle "PUT" p h mws
        ∧ b.Patch p h mws = b.handle "PATCH" p h mws
        ∧ b.Delete p h mws = b.handle "DELETE" p h mws)
      ∧ ∃ w', serveMux (NewApplication.Get "/c" (logHandler "H") []) ⟨"get", "/c"⟩
          emptyResponse = some (.ok w') ∧ w'.status = some 405) := by
  have hr : Reachable (NewApplication.Get "/c" (logHandler "H") []) :=
    Reachable.step Reachable.new (PublicStep.get NewApplication "/c" (logHandler "H") [])
  have hmem : "/c" ∈ (NewApplication.Get "/c" (logHandler "H") []).mux := by
    show "/c" ∈ [] ++ ["/c"]
    simp
  exact ⟨hr, hmem, by simp, method_lookup_case_sensitive
    (NewApplication.Get "/c" (logHandler "H") []) ⟨"get", "/c"⟩ emptyResponse hr hmem
    (by simp)⟩
